import Mathlib

/-!
Verification of the `kqxs` lottery-result notifier (`main.go`).

Strings are modelled as `List Char`; the functions below are direct
translations of the Go code in `src/main.go`.
-/

namespace KQXS

/-- Strings, modelled as lists of characters. -/
abbrev Str := List Char

/-- Character list of a Lean string literal. -/
def str (s : String) : Str := s.data

/-- Go `unicode.IsSpace`: the Unicode `White_Space` property. -/
def goIsSpace (c : Char) : Bool :=
  let n := c.toNat
  (9 ≤ n && n ≤ 13) || n = 32 || n = 0x85 || n = 0xA0 || n = 0x1680 ||
  (0x2000 ≤ n && n ≤ 0x200A) || n = 0x2028 || n = 0x2029 || n = 0x202F ||
  n = 0x205F || n = 0x3000

/-- Go `strings.TrimSpace`: drop leading and trailing white space. -/
def trimSpace (s : Str) : Str :=
  ((s.dropWhile goIsSpace).reverse.dropWhile goIsSpace).reverse

/-- Go `strings.HasPrefix`. -/
def goHasPrefix (pre s : Str) : Bool := pre.isPrefixOf s

/-- Go `strings.Contains s sub`: whether `sub` occurs as a substring of `s`. -/
def goContains (s sub : Str) : Bool :=
  match s with
  | [] => sub.isEmpty
  | c :: rest => sub.isPrefixOf (c :: rest) || goContains rest sub

/-- Go `strings.Split(s, "\n")` (single-character separator case). -/
def splitNl (s : Str) : List Str := s.splitOn '\n'

/-- Go `strings.ReplaceAll` worker: scan left to right, replacing
non-overlapping occurrences of `pat`, never rescanning the replacement.
The fuel argument is initialised to the length of the scanned string and
never runs out on that initialisation. -/
def replaceAllGo (pat rep : Str) : Nat → Str → Str
  | _, [] => []
  | 0, s => s
  | fuel + 1, c :: rest =>
    if pat ≠ [] ∧ pat.isPrefixOf (c :: rest) then
      rep ++ replaceAllGo pat rep fuel (rest.drop (pat.length - 1))
    else
      c :: replaceAllGo pat rep fuel rest

/-- Go `strings.ReplaceAll(s, pat, rep)` for non-empty `pat` (every call in
`main.go` passes a non-empty pattern). -/
def replaceAll (pat rep s : Str) : Str := replaceAllGo pat rep s.length s

/-- The three break-tag replacements at the top of `parseDescription`,
applied in source order. -/
def normalizeBreaks (desc : Str) : Str :=
  replaceAll (str "<br />") (str "\n")
    (replaceAll (str "<br/>") (str "\n")
      (replaceAll (str "<br>") (str "\n") desc))

/-- The location-marker test of `parseDescription`:
`strings.HasPrefix(line, "[") && strings.Contains(line, "]")`. -/
def isLocMarker (line : Str) : Bool :=
  goHasPrefix (str "[") line && goContains line (str "]")

/-- The prize-marker test of `parseDescription`: `strings.HasPrefix(line, "G.")`. -/
def isPrizeLine (line : Str) : Bool := goHasPrefix (str "G.") line

/-- Content model of the Go statement
`results[k] = append(results[k], v)` on a `map[string][]string`.
The association list records the map's key set and per-key slices; the
list position of a key is the position of its first insertion.  This is a
canonical representation of the map's CONTENT only: iteration order of a
Go map is unspecified and is NOT captured by the list order. -/
def appendAt (k v : Str) : List (Str × List Str) → List (Str × List Str)
  | [] => [(k, [v])]
  | (k2, vs) :: rest =>
    if k2 = k then (k2, vs ++ [v]) :: rest else (k2, vs) :: appendAt k v rest

/-- The line loop of `parseDescription`: trim, skip empties, track the
current location, collect `G.`-prefixed lines. -/
def parseLoop (cur : Str) (lines : List Str) (results : List (Str × List Str)) :
    List (Str × List Str) :=
  match lines with
  | [] => results
  | line :: rest =>
    let t := trimSpace line
    if t = [] then parseLoop cur rest results
    else if isLocMarker t then parseLoop t rest results
    else if isPrizeLine t then parseLoop cur rest (appendAt cur t results)
    else parseLoop cur rest results

/-- `parseDescription` applied to an already split line list. -/
def parseLines (lines : List Str) : List (Str × List Str) :=
  parseLoop (str "") lines []

/-- Go `parseDescription` (`main.go:72`): normalize break tags, split on
newlines, and fold the line loop. -/
def parseDescription (desc : Str) : List (Str × List Str) :=
  parseLines (splitNl (normalizeBreaks desc))

example : parseDescription (str "[A]\nG.1: x\nG.2: y\n[B]\nG.3: z") =
    [(str "[A]", [str "G.1: x", str "G.2: y"]), (str "[B]", [str "G.3: z"])] := by
  decide

example : parseDescription (str "hello") = [] := by decide

example : parseDescription (str "[A]") = [] := by decide

example : parseDescription (str "G.1: x<br>G.2: y") =
    [(str "", [str "G.1: x", str "G.2: y"])] := by decide

example : parseDescription (str "G.1: x<BR>G.2: y") =
    [(str "", [str "G.1: x<BR>G.2: y"])] := by decide

example : parseDescription (str " G.1: x <br />[B] \n:: junk ::\nG.9: q") =
    [(str "", [str "G.1: x"]), (str "[B]", [str "G.9: q"])] := by decide

/-! ## The feed data model and `runJob` (`main.go:115`) -/

/-- One `<item>` of the RSS feed (`RSS.Channel.Items` element). -/
structure Item where
  title : Str
  description : Str
  pubDate : Str
deriving DecidableEq

/-- The decoded feed: the item list of the single channel. -/
structure RSS where
  items : List Item
deriving DecidableEq

/-- The `"Miền Bắc"` entry of the `rssURLs` map literal (`main.go:28`). -/
def srcMB : Str × Str :=
  (str "Miền Bắc", str "https://xosodaiphat.com/ket-qua-xo-so-mien-bac-xsmb.rss")

/-- The `"Miền Trung"` entry of the `rssURLs` map literal. -/
def srcMT : Str × Str :=
  (str "Miền Trung", str "https://xosodaiphat.com/ket-qua-xo-so-mien-trung-xsmt.rss")

/-- The `"Miền Nam"` entry of the `rssURLs` map literal. -/
def srcMN : Str × Str :=
  (str "Miền Nam", str "https://xosodaiphat.com/ket-qua-xo-so-mien-nam-xsmn.rss")

/-- Content of the `rssURLs` map literal (`main.go:28`), recorded in
declaration order.  The Go value is a `map[string]string`, so a `range`
over it enumerates these pairs in an unspecified, run-to-run randomized
order. -/
def rssURLs : List (Str × Str) := [srcMB, srcMT, srcMN]

/-- The fixed report header written first in `runJob`. -/
def reportHeader : Str := str "🎰 *Kết quả xổ số hôm nay*\n\n"

/-- The inner prize loop of `runJob`: given one enumeration of the
location map, append each group (`loc` line when non-empty, its prize
lines, a blank separator) to the builder. -/
def renderTable (entries : List (Str × List Str)) : Str :=
  entries.foldl
    (fun acc e =>
      let acc1 := if e.1 = [] then acc else acc ++ e.1 ++ str "\n"
      let acc2 := e.2.foldl (fun a p => a ++ p ++ str "\n") acc1
      acc2 ++ str "\n")
    []

/-- A map enumeration oracle: the order in which a Go `range` over the
location map yields its entries.  Go only guarantees that the result is
some permutation of the map's content. -/
abbrev TableEnum := List (Str × List Str) → List (Str × List Str)

/-- The text `runJob` appends for one successfully fetched source:
`"📢 %s - %s\n"` with region and the first item's title, followed by the
prize loop over the parsed description. -/
def sourceBlock (tEnum : TableEnum) (region : Str) (item : Item) : Str :=
  str "📢 " ++ region ++ str " - " ++ item.title ++ str "\n" ++
    renderTable (tEnum (parseDescription item.description))

/-- One iteration of the source loop of `runJob`: skip the source when its
fetch errors (`fetch url = none`, logged and `continue`d in Go) or when it
returns zero items; otherwise append its block to the builder. -/
def buildStep (tEnum : TableEnum) (fetch : Str → Option RSS)
    (acc : Str) (src : Str × Str) : Str :=
  match fetch src.2 with
  | none => acc
  | some rss =>
    match rss.items with
    | [] => acc
    | item :: _ => acc ++ sourceBlock tEnum src.1 item

/-- The message accumulation of `runJob`: fold over the sources in the
order the `range` over `rssURLs` happens to yield them (`order`). -/
def buildMessage (tEnum : TableEnum) (order : List (Str × Str))
    (fetch : Str → Option RSS) : Str :=
  order.foldl (buildStep tEnum fetch) reportHeader

/-- The messages `runJob` hands to `sendToTelegram`: after the loop it
calls the notifier exactly once, unconditionally, with the built message. -/
def runJobSends (tEnum : TableEnum) (order : List (Str × Str))
    (fetch : Str → Option RSS) : List Str :=
  [buildMessage tEnum order fetch]

/-! ## The notifier `sendToTelegram` (`main.go:103`) -/

/-- The POST body built by
`fmt.Sprintf("chat_id=%s&text=%s", telegramChatID, message)` —
plain interpolation, no URL-encoding of either value. -/
def payload (chatID message : Str) : Str :=
  str "chat_id=" ++ chatID ++ str "&text=" ++ message

/-- An HTTP response as far as `sendToTelegram` can observe one. -/
structure HttpResponse where
  status : Nat
deriving DecidableEq

/-- Go `sendToTelegram`: POST the payload; return the transport error if
the request itself fails, otherwise close the body and return `nil`
without looking at the response (in particular not at its status code). -/
def sendToTelegram (chatID message : Str)
    (post : Str → Except Str HttpResponse) : Option Str :=
  match post (payload chatID message) with
  | Except.ok _ => none
  | Except.error e => some e

/-- Decoding of an `application/x-www-form-urlencoded` body into fields:
split on the field separator, then each field on its first equals sign.
This models the receiving side used to state claims about the payload
(percent-decoding is irrelevant to the inputs considered here). -/
def formFields (body : Str) : List (Str × Str) :=
  (body.splitOn '&').map fun f =>
    (f.takeWhile (· ≠ '='), (f.dropWhile (· ≠ '=')).drop 1)

example :
    formFields (payload (str "42") (str "a&b")) =
      [(str "chat_id", str "42"), (str "text", str "a"), (str "b", str "")] := by
  decide

example :
    buildMessage id rssURLs (fun _ => none) = reportHeader := by decide

/-! ## Lemmas about `replaceAll` -/

theorem replaceAllGo_fuel (pat rep : Str) :
    ∀ f1 f2 s, s.length ≤ f1 → s.length ≤ f2 →
      replaceAllGo pat rep f1 s = replaceAllGo pat rep f2 s := by
  intro f1
  induction f1 with
  | zero =>
    intro f2 s h1 _
    have hs : s = [] := List.length_eq_zero.mp (Nat.le_zero.mp h1)
    subst hs
    cases f2 <;> rfl
  | succ f ih =>
    intro f2 s h1 h2
    cases s with
    | nil => cases f2 <;> rfl
    | cons c rest =>
      cases f2 with
      | zero => simp at h2
      | succ f2 =>
        simp only [replaceAllGo]
        by_cases hcond : pat ≠ [] ∧ pat.isPrefixOf (c :: rest)
        · rw [if_pos hcond, if_pos hcond]
          have hlen : (rest.drop (pat.length - 1)).length ≤ rest.length := by
            simp [List.length_drop]
          simp only [List.length_cons, Nat.succ_le_succ_iff] at h1 h2
          rw [ih _ _ (le_trans hlen h1) (le_trans hlen h2)]
        · rw [if_neg hcond, if_neg hcond]
          simp only [List.length_cons, Nat.succ_le_succ_iff] at h1 h2
          rw [ih _ _ h1 h2]

theorem replaceAll_nil (pat rep : Str) : replaceAll pat rep [] = [] := rfl

/-- Characteristic equation of `replaceAll` for a non-empty pattern. -/
theorem replaceAll_cons (pat rep : Str) (hp : pat ≠ []) (c : Char) (rest : Str) :
    replaceAll pat rep (c :: rest) =
      if pat.isPrefixOf (c :: rest) then
        rep ++ replaceAll pat rep (rest.drop (pat.length - 1))
      else c :: replaceAll pat rep rest := by
  show replaceAllGo pat rep (c :: rest).length (c :: rest) = _
  simp only [List.length_cons, replaceAllGo]
  by_cases hpre : pat.isPrefixOf (c :: rest)
  · rw [if_pos ⟨hp, hpre⟩, if_pos hpre]
    have hlen : (rest.drop (pat.length - 1)).length ≤ rest.length := by
      simp [List.length_drop]
    rw [replaceAllGo_fuel pat rep _ _ _ hlen (le_refl _)]
    rfl
  · rw [if_neg (by tauto), if_neg hpre]
    rfl

/-- Scanning past characters that cannot start a match: a segment free of
the pattern's first character is copied verbatim. -/
theorem replaceAll_skip_clean (p0 : Char) (pt rep : Str) (s u : Str)
    (hs : ∀ c ∈ s, c ≠ p0) :
    replaceAll (p0 :: pt) rep (s ++ u) = s ++ replaceAll (p0 :: pt) rep u := by
  induction s with
  | nil => simp
  | cons c s2 ih =>
    have hc : c ≠ p0 := hs c (List.mem_cons_self ..)
    rw [List.cons_append, replaceAll_cons _ _ (by simp)]
    have hpre : ¬ (p0 :: pt).isPrefixOf (c :: (s2 ++ u)) = true := by
      intro h
      obtain ⟨t, ht⟩ := List.isPrefixOf_iff_prefix.mp h
      rw [List.cons_append] at ht
      exact hc (List.head_eq_of_cons_eq ht).symm
    rw [if_neg hpre, ih (fun x hx => hs x (List.mem_cons_of_mem _ hx)), List.cons_append]

/-- A string free of the pattern's first character is left unchanged. -/
theorem replaceAll_clean (p0 : Char) (pt rep : Str) (s : Str)
    (hs : ∀ c ∈ s, c ≠ p0) :
    replaceAll (p0 :: pt) rep s = s := by
  have h := replaceAll_skip_clean p0 pt rep s [] hs
  simpa [replaceAll_nil] using h

/-- A match at the front of the string is replaced and the scan resumes
after it, without rescanning the replacement. -/
theorem replaceAll_at_match (pat rep u : Str) (hp : pat ≠ []) :
    replaceAll pat rep (pat ++ u) = rep ++ replaceAll pat rep u := by
  obtain ⟨p0, pt, rfl⟩ : ∃ a l, pat = a :: l := by
    cases pat with
    | nil => exact absurd rfl hp
    | cons a l => exact ⟨a, l, rfl⟩
  rw [List.cons_append, replaceAll_cons _ _ hp]
  have hpre : (p0 :: pt).isPrefixOf (p0 :: (pt ++ u)) = true :=
    List.isPrefixOf_iff_prefix.mpr ⟨u, by simp⟩
  rw [if_pos hpre]
  congr 1
  simp only [List.length_cons, Nat.add_sub_cancel]
  exact congrArg _ (List.drop_left pt u)

/-- Scanning past a different tag: a block that starts with a character
that mismatches the pattern inside the block itself (so no match can start
at its head, whatever follows), and whose tail is free of the pattern's
first character, is copied verbatim. -/
theorem replaceAll_skip_tag (p0 : Char) (pt rep : Str) (c : Char) (t2 u : Str)
    (htail : ∀ x ∈ t2, x ≠ p0)
    (hno : ¬ ((c :: t2).take (p0 :: pt).length <+: (p0 :: pt))) :
    replaceAll (p0 :: pt) rep ((c :: t2) ++ u) =
      (c :: t2) ++ replaceAll (p0 :: pt) rep u := by
  rw [List.cons_append, replaceAll_cons _ _ (by simp)]
  have hpre : ¬ (p0 :: pt).isPrefixOf (c :: (t2 ++ u)) = true := by
    intro h
    apply hno
    have hpfx := List.isPrefixOf_iff_prefix.mp h
    have heq := List.prefix_iff_eq_take.mp hpfx
    rw [show c :: (t2 ++ u) = (c :: t2) ++ u from rfl,
      List.take_append_eq_append_take] at heq
    exact ⟨_, heq.symm⟩
  rw [if_neg hpre, replaceAll_skip_clean p0 pt rep t2 u htail, List.cons_append]

/-! ## A generator for descriptions that differ only in break-tag spelling

`joinSep s0 rest` interleaves text segments with separators, each
separator being one of the three recognized break-tag spellings or a
literal newline.  Two descriptions "identical except for the spelling of
inline break tags" are two `joinSep` images with the same segments. -/

/-- A separator between two text segments. -/
inductive Sep where
  | nl
  | br
  | brSlash
  | brSpaceSlash
deriving DecidableEq

/-- The characters of a separator. -/
def Sep.chars : Sep → Str
  | .nl => str "\n"
  | .br => str "<br>"
  | .brSlash => str "<br/>"
  | .brSpaceSlash => str "<br />"

/-- Interleave segments and separators. -/
def joinSep : Str → List (Sep × Str) → Str
  | s, [] => s
  | s, (t, s2) :: rest => s ++ t.chars ++ joinSep s2 rest

/-- Join segments with literal newlines. -/
def joinNl : Str → List Str → Str
  | s, [] => s
  | s, x :: r => s ++ str "\n" ++ joinNl x r

/-- A segment that contains no `<` cannot take part in any break-tag
match. -/
abbrev noLt (s : Str) : Prop := ∀ c ∈ s, c ≠ '<'

/-- One `ReplaceAll` pass over a `joinSep` image rewrites exactly the
separators whose spelling is the pattern, provided every segment is free
of `<`.  The map `m` sends the matched spelling to `Sep.nl` and fixes the
others; `hskip` certifies that unmatched separators are copied verbatim. -/
theorem replaceAll_joinSep (pt : Str) (m : Sep → Sep)
    (hskip : ∀ t : Sep, m t = t → ∀ u,
      replaceAll ('<' :: pt) (str "\n") (t.chars ++ u) =
        t.chars ++ replaceAll ('<' :: pt) (str "\n") u)
    (hmatch : ∀ t : Sep, m t ≠ t →
      t.chars = '<' :: pt ∧ (m t).chars = str "\n") :
    ∀ (rest : List (Sep × Str)) (s0 : Str), noLt s0 → (∀ p ∈ rest, noLt p.2) →
      replaceAll ('<' :: pt) (str "\n") (joinSep s0 rest) =
        joinSep s0 (rest.map fun p => (m p.1, p.2)) := by
  intro rest
  induction rest with
  | nil =>
    intro s0 h0 _
    exact replaceAll_clean '<' pt (str "\n") s0 h0
  | cons p rest ih =>
    intro s0 h0 h
    obtain ⟨t, s2⟩ := p
    have hs2 : noLt s2 := h (t, s2) (List.mem_cons_self ..)
    have hrest : ∀ p ∈ rest, noLt p.2 := fun p hp => h p (List.mem_cons_of_mem _ hp)
    simp only [joinSep, List.map_cons]
    rw [List.append_assoc, replaceAll_skip_clean '<' pt (str "\n") s0 _ h0]
    by_cases hmt : m t = t
    · rw [hskip t hmt, ih s2 hs2 hrest, hmt, List.append_assoc]
    · obtain ⟨hc, hmc⟩ := hmatch t hmt
      rw [hc, replaceAll_at_match _ _ _ (by simp), ih s2 hs2 hrest, hmc,
        List.append_assoc]

/-- First pass: `<br>` becomes a newline. -/
def Sep.pass1 : Sep → Sep
  | .br => .nl
  | t => t

/-- Second pass: `<br/>` becomes a newline. -/
def Sep.pass2 : Sep → Sep
  | .brSlash => .nl
  | t => t

/-- Third pass: `<br />` becomes a newline. -/
def Sep.pass3 : Sep → Sep
  | .brSpaceSlash => .nl
  | t => t

/-- The three passes of `normalizeBreaks` on a `joinSep` image turn every
separator into a literal newline. -/
theorem normalizeBreaks_joinSep (s0 : Str) (rest : List (Sep × Str))
    (h0 : noLt s0) (h : ∀ p ∈ rest, noLt p.2) :
    normalizeBreaks (joinSep s0 rest) = joinNl s0 (rest.map Prod.snd) := by
  have hseg1 : ∀ p ∈ rest.map (fun p : Sep × Str => (p.1.pass1, p.2)), noLt p.2 := by
    intro p hp
    obtain ⟨q, hq, rfl⟩ := List.mem_map.mp hp
    exact h q hq
  have hseg2 : ∀ p ∈ (rest.map (fun p : Sep × Str => (p.1.pass1, p.2))).map
      (fun p : Sep × Str => (p.1.pass2, p.2)), noLt p.2 := by
    intro p hp
    obtain ⟨q, hq, rfl⟩ := List.mem_map.mp hp
    exact hseg1 q hq
  have h1 : replaceAll (str "<br>") (str "\n") (joinSep s0 rest) =
      joinSep s0 (rest.map fun p => (p.1.pass1, p.2)) := by
    refine replaceAll_joinSep (str "br>") Sep.pass1 ?_ ?_ rest s0 h0 h
    · intro t ht u
      cases t with
      | nl => exact replaceAll_skip_clean '<' (str "br>") (str "\n") (str "\n") u (by decide)
      | br => exact absurd ht (by decide)
      | brSlash =>
        exact replaceAll_skip_tag '<' (str "br>") (str "\n") '<' (str "br/>") u
          (by decide) (by decide)
      | brSpaceSlash =>
        exact replaceAll_skip_tag '<' (str "br>") (str "\n") '<' (str "br />") u
          (by decide) (by decide)
    · intro t ht
      cases t with
      | br => exact ⟨rfl, rfl⟩
      | nl => exact absurd rfl ht
      | brSlash => exact absurd rfl ht
      | brSpaceSlash => exact absurd rfl ht
  have h2 : replaceAll (str "<br/>") (str "\n")
        (joinSep s0 (rest.map fun p => (p.1.pass1, p.2))) =
      joinSep s0 ((rest.map fun p : Sep × Str => (p.1.pass1, p.2)).map
        fun p => (p.1.pass2, p.2)) := by
    refine replaceAll_joinSep (str "br/>") Sep.pass2 ?_ ?_ _ s0 h0 hseg1
    · intro t ht u
      cases t with
      | nl => exact replaceAll_skip_clean '<' (str "br/>") (str "\n") (str "\n") u (by decide)
      | br =>
        exact replaceAll_skip_tag '<' (str "br/>") (str "\n") '<' (str "br>") u
          (by decide) (by decide)
      | brSlash => exact absurd ht (by decide)
      | brSpaceSlash =>
        exact replaceAll_skip_tag '<' (str "br/>") (str "\n") '<' (str "br />") u
          (by decide) (by decide)
    · intro t ht
      cases t with
      | brSlash => exact ⟨rfl, rfl⟩
      | nl => exact absurd rfl ht
      | br => exact absurd rfl ht
      | brSpaceSlash => exact absurd rfl ht
  have h3 : replaceAll (str "<br />") (str "\n")
        (joinSep s0 ((rest.map fun p : Sep × Str => (p.1.pass1, p.2)).map
          fun p => (p.1.pass2, p.2))) =
      joinSep s0 (((rest.map fun p : Sep × Str => (p.1.pass1, p.2)).map
        fun p : Sep × Str => (p.1.pass2, p.2)).map fun p => (p.1.pass3, p.2)) := by
    refine replaceAll_joinSep (str "br />") Sep.pass3 ?_ ?_ _ s0 h0 hseg2
    · intro t ht u
      cases t with
      | nl => exact replaceAll_skip_clean '<' (str "br />") (str "\n") (str "\n") u (by decide)
      | br =>
        exact replaceAll_skip_tag '<' (str "br />") (str "\n") '<' (str "br>") u
          (by decide) (by decide)
      | brSlash =>
        exact replaceAll_skip_tag '<' (str "br />") (str "\n") '<' (str "br/>") u
          (by decide) (by decide)
      | brSpaceSlash => exact absurd ht (by decide)
    · intro t ht
      cases t with
      | brSpaceSlash => exact ⟨rfl, rfl⟩
      | nl => exact absurd rfl ht
      | br => exact absurd rfl ht
      | brSlash => exact absurd rfl ht
  have hall : (((rest.map fun p : Sep × Str => (p.1.pass1, p.2)).map
      fun p : Sep × Str => (p.1.pass2, p.2)).map fun p : Sep × Str => (p.1.pass3, p.2)) =
      rest.map fun p => (Sep.nl, p.2) := by
    rw [List.map_map, List.map_map]
    refine List.map_congr_left ?_
    intro p _
    obtain ⟨t, s⟩ := p
    cases t <;> rfl
  have hnl : ∀ (l : List (Sep × Str)) (s : Str),
      joinSep s (l.map fun p => (Sep.nl, p.2)) = joinNl s (l.map Prod.snd) := by
    intro l
    induction l with
    | nil => intro s; rfl
    | cons p r ih =>
      intro s
      show s ++ Sep.nl.chars ++ joinSep p.2 (r.map fun p => (Sep.nl, p.2)) = _
      rw [ih p.2]
      rfl
  show replaceAll (str "<br />") (str "\n")
      (replaceAll (str "<br/>") (str "\n")
        (replaceAll (str "<br>") (str "\n") (joinSep s0 rest))) = _
  rw [h1, h2, h3, hall, hnl]

/-! ## Invariants of the parse loop -/

/-- `appendAt` preserves a per-entry predicate, given that it holds for a
fresh singleton entry and is stable under appending the new value. -/
theorem appendAt_forall (P : Str × List Str → Prop) (k v : Str) :
    ∀ res : List (Str × List Str), (∀ e ∈ res, P e) → P (k, [v]) →
      (∀ k2 vs, P (k2, vs) → P (k2, vs ++ [v])) →
      ∀ e ∈ appendAt k v res, P e := by
  intro res
  induction res with
  | nil =>
    intro _ hnew _ e he
    simp only [appendAt, List.mem_singleton] at he
    subst he
    exact hnew
  | cons p rest ih =>
    intro hres hnew hext e he
    obtain ⟨k2, vs⟩ := p
    simp only [appendAt] at he
    by_cases hk : k2 = k
    · rw [if_pos hk] at he
      rcases List.mem_cons.mp he with h | h
      · subst h
        exact hext k2 vs (hres (k2, vs) (List.mem_cons_self ..))
      · exact hres e (List.mem_cons_of_mem _ h)
    · rw [if_neg hk] at he
      rcases List.mem_cons.mp he with h | h
      · subst h
        exact hres (k2, vs) (List.mem_cons_self ..)
      · exact ih (fun e2 he2 => hres e2 (List.mem_cons_of_mem _ he2)) hnew hext e h

/-- The parse loop preserves a per-entry predicate: new entries are keyed
by the current location (empty or a location-marker line) and hold a
single prize line; existing entries are extended by one prize line. -/
theorem parseLoop_forall (P : Str × List Str → Prop)
    (hnew : ∀ cur v, (cur = [] ∨ isLocMarker cur = true) → isPrizeLine v = true →
      P (cur, [v]))
    (hext : ∀ k vs v, isPrizeLine v = true → P (k, vs) → P (k, vs ++ [v])) :
    ∀ (lines : List Str) (cur : Str) (res : List (Str × List Str)),
      (cur = [] ∨ isLocMarker cur = true) → (∀ e ∈ res, P e) →
      ∀ e ∈ parseLoop cur lines res, P e := by
  intro lines
  induction lines with
  | nil =>
    intro cur res _ hres
    simpa [parseLoop] using hres
  | cons line rest ih =>
    intro cur res hcur hres
    simp only [parseLoop]
    by_cases h1 : trimSpace line = []
    · rw [if_pos h1]
      exact ih cur res hcur hres
    · rw [if_neg h1]
      by_cases h2 : isLocMarker (trimSpace line) = true
      · rw [if_pos h2]
        exact ih _ res (Or.inr h2) hres
      · rw [if_neg h2]
        by_cases h3 : isPrizeLine (trimSpace line) = true
        · rw [if_pos h3]
          exact ih cur _ hcur
            (appendAt_forall P cur (trimSpace line) res hres
              (hnew cur _ hcur h3) (fun k2 vs hp => hext k2 vs _ h3 hp))
        · rw [if_neg h3]
          exact ih cur res hcur hres

/-- The line filter that keeps exactly the marker lines. -/
def keepMarker (l : Str) : Bool :=
  isLocMarker (trimSpace l) || isPrizeLine (trimSpace l)

/-- Dropping every line that is neither a location marker nor a prize
marker does not change the parse loop's result. -/
theorem parseLoop_filter :
    ∀ (lines : List Str) (cur : Str) (res : List (Str × List Str)),
      parseLoop cur (lines.filter keepMarker) res = parseLoop cur lines res := by
  intro lines
  induction lines with
  | nil => intro cur res; rfl
  | cons line rest ih =>
    intro cur res
    rw [List.filter_cons]
    by_cases h1 : trimSpace line = []
    · have hk : keepMarker line = false := by
        unfold keepMarker
        rw [h1]
        rfl
      rw [hk]
      simp only [Bool.false_eq_true, if_false]
      rw [ih]
      have : parseLoop cur (line :: rest) res = parseLoop cur rest res := by
        simp only [parseLoop]
        rw [if_pos h1]
      rw [this]
    · by_cases h2 : isLocMarker (trimSpace line) = true
      · have hk : keepMarker line = true := by
          unfold keepMarker
          rw [h2]
          rfl
        rw [hk]
        simp only [if_true]
        simp only [parseLoop]
        rw [if_neg h1, if_neg h1, if_pos h2, if_pos h2, ih]
      · by_cases h3 : isPrizeLine (trimSpace line) = true
        · have hk : keepMarker line = true := by
            unfold keepMarker
            rw [h3]
            exact Bool.or_true _
          rw [hk]
          simp only [if_true]
          simp only [parseLoop]
          rw [if_neg h1, if_neg h1, if_neg h2, if_neg h2, if_pos h3, if_pos h3, ih]
        · have e2 : isLocMarker (trimSpace line) = false := by simpa using h2
          have e3 : isPrizeLine (trimSpace line) = false := by simpa using h3
          have hk : keepMarker line = false := by
            unfold keepMarker
            rw [e2, e3]
            rfl
          rw [hk]
          simp only [Bool.false_eq_true, if_false]
          rw [ih]
          have : parseLoop cur (line :: rest) res = parseLoop cur rest res := by
            simp only [parseLoop]
            rw [if_neg h1, if_neg h2, if_neg h3]
          rw [this]

/-- The trimmed prize lines of a line list, in order. -/
def gLinesOf (lines : List Str) : List Str :=
  lines.filterMap fun l =>
    if isPrizeLine (trimSpace l) then some (trimSpace l) else none

/-- On marker-free input the loop only ever extends the single
empty-string entry. -/
theorem parseLoop_no_marker_acc :
    ∀ (lines : List Str) (acc : List Str),
      (∀ l ∈ lines, isLocMarker (trimSpace l) = false) →
      parseLoop [] lines [([], acc)] = [([], acc ++ gLinesOf lines)] := by
  intro lines
  induction lines with
  | nil =>
    intro acc _
    simp [parseLoop, gLinesOf]
  | cons line rest ih =>
    intro acc h
    have h2 : isLocMarker (trimSpace line) = false :=
      h line (List.mem_cons_self ..)
    have hrest : ∀ l ∈ rest, isLocMarker (trimSpace l) = false :=
      fun l hl => h l (List.mem_cons_of_mem _ hl)
    simp only [parseLoop]
    by_cases h1 : trimSpace line = []
    · rw [if_pos h1, ih acc hrest]
      have : gLinesOf (line :: rest) = gLinesOf rest := by
        unfold gLinesOf
        rw [List.filterMap_cons]
        have : isPrizeLine (trimSpace line) = false := by
          rw [h1]
          rfl
        rw [this]
        simp only [Bool.false_eq_true, if_false]
      rw [this]
    · rw [if_neg h1, if_neg (by rw [h2]; exact Bool.false_ne_true)]
      by_cases h3 : isPrizeLine (trimSpace line) = true
      · rw [if_pos h3]
        have happ : appendAt [] (trimSpace line) [([], acc)] =
            [([], acc ++ [trimSpace line])] := by
          simp [appendAt]
        rw [happ, ih _ hrest]
        have : gLinesOf (line :: rest) = trimSpace line :: gLinesOf rest := by
          unfold gLinesOf
          rw [List.filterMap_cons, h3]
          simp
        rw [this, List.append_assoc]
        rfl
      · rw [if_neg h3, ih acc hrest]
        have : gLinesOf (line :: rest) = gLinesOf rest := by
          unfold gLinesOf
          rw [List.filterMap_cons]
          rw [show isPrizeLine (trimSpace line) = false from Bool.eq_false_iff.mpr h3]
          simp only [Bool.false_eq_true, if_false]
        rw [this]

/-- On marker-free input the table is empty when there is no prize line,
and otherwise is the single empty-string entry with all prize lines. -/
theorem parseLoop_no_marker :
    ∀ lines : List Str, (∀ l ∈ lines, isLocMarker (trimSpace l) = false) →
      parseLoop [] lines [] =
        if gLinesOf lines = [] then [] else [([], gLinesOf lines)] := by
  intro lines
  induction lines with
  | nil => intro _; rfl
  | cons line rest ih =>
    intro h
    have h2 : isLocMarker (trimSpace line) = false :=
      h line (List.mem_cons_self ..)
    have hrest : ∀ l ∈ rest, isLocMarker (trimSpace l) = false :=
      fun l hl => h l (List.mem_cons_of_mem _ hl)
    simp only [parseLoop]
    by_cases h1 : trimSpace line = []
    · rw [if_pos h1, ih hrest]
      have : gLinesOf (line :: rest) = gLinesOf rest := by
        unfold gLinesOf
        rw [List.filterMap_cons]
        have : isPrizeLine (trimSpace line) = false := by
          rw [h1]
          rfl
        rw [this]
        simp only [Bool.false_eq_true, if_false]
      rw [this]
    · rw [if_neg h1, if_neg (by rw [h2]; exact Bool.false_ne_true)]
      by_cases h3 : isPrizeLine (trimSpace line) = true
      · rw [if_pos h3]
        have happ : appendAt [] (trimSpace line) [] = [([], [trimSpace line])] := rfl
        rw [happ, parseLoop_no_marker_acc rest _ hrest]
        have : gLinesOf (line :: rest) = trimSpace line :: gLinesOf rest := by
          unfold gLinesOf
          rw [List.filterMap_cons, h3]
          simp
        rw [this]
        rw [if_neg (by simp)]
        rfl
      · rw [if_neg h3, ih hrest]
        have : gLinesOf (line :: rest) = gLinesOf rest := by
          unfold gLinesOf
          rw [List.filterMap_cons]
          rw [show isPrizeLine (trimSpace line) = false from Bool.eq_false_iff.mpr h3]
          simp only [Bool.false_eq_true, if_false]
        rw [this]

/-! ## Lemmas about the report builder -/

/-- A skipped source leaves the builder unchanged. -/
theorem buildStep_skip (tEnum : TableEnum) (fetch : Str → Option RSS)
    (acc : Str) (src : Str × Str)
    (h : fetch src.2 = none ∨ ∃ rss, fetch src.2 = some rss ∧ rss.items = []) :
    buildStep tEnum fetch acc src = acc := by
  unfold buildStep
  rcases h with hf | ⟨rss, hf, hi⟩
  · rw [hf]
  · rw [hf]
    obtain ⟨items⟩ := rss
    simp only at hi
    subst hi
    rfl

/-- A successfully fetched source appends exactly its block. -/
theorem buildStep_ok (tEnum : TableEnum) (fetch : Str → Option RSS)
    (acc : Str) (src : Str × Str) (item : Item) (rest : List Item)
    (h : fetch src.2 = some ⟨item :: rest⟩) :
    buildStep tEnum fetch acc src = acc ++ sourceBlock tEnum src.1 item := by
  unfold buildStep
  rw [h]

/-- Folding the source loop over skipped sources is a no-op. -/
theorem foldl_buildStep_skip (tEnum : TableEnum) (fetch : Str → Option RSS) :
    ∀ (order : List (Str × Str)) (acc : Str),
      (∀ src ∈ order,
        fetch src.2 = none ∨ ∃ rss, fetch src.2 = some rss ∧ rss.items = []) →
      order.foldl (buildStep tEnum fetch) acc = acc := by
  intro order
  induction order with
  | nil => intro acc _; rfl
  | cons src rest ih =>
    intro acc h
    rw [List.foldl_cons, buildStep_skip tEnum fetch acc src (h src (List.mem_cons_self ..))]
    exact ih acc fun s hs => h s (List.mem_cons_of_mem _ hs)

/-- Whether `runJob` renders a source: its fetch succeeded with at least
one item. -/
def fetchOk (r : Option RSS) : Bool :=
  match r with
  | none => false
  | some rss =>
    match rss.items with
    | [] => false
    | _ :: _ => true

/-- The report only depends on the sources whose fetch succeeded with at
least one item: failed and empty sources are skipped entirely. -/
theorem buildMessage_filter_ok (tEnum : TableEnum) (fetch : Str → Option RSS) :
    ∀ (order : List (Str × Str)) (acc : Str),
      order.foldl (buildStep tEnum fetch) acc =
        (order.filter fun src => fetchOk (fetch src.2)).foldl
          (buildStep tEnum fetch) acc := by
  intro order
  induction order with
  | nil => intro acc; rfl
  | cons src rest ih =>
    intro acc
    rw [List.foldl_cons, List.filter_cons]
    rcases hf : fetch src.2 with - | rss
    · rw [buildStep_skip tEnum fetch acc src (Or.inl hf)]
      simp only [show fetchOk none = false from rfl, Bool.false_eq_true, if_false]
      exact ih acc
    · obtain ⟨items⟩ := rss
      cases items with
      | nil =>
        rw [buildStep_skip tEnum fetch acc src (Or.inr ⟨⟨[]⟩, hf, rfl⟩)]
        simp only [show fetchOk (some ⟨[]⟩) = false from rfl, Bool.false_eq_true,
          if_false]
        exact ih acc
      | cons item more =>
        rw [buildStep_ok tEnum fetch acc src item more hf]
        simp only [show fetchOk (some ⟨item :: more⟩) = true from rfl, if_true,
          List.foldl_cons]
        rw [buildStep_ok tEnum fetch acc src item more hf]
        exact ih _

/-- A string contains any suffix of itself. -/
theorem goContains_append_self (a p : Str) : goContains (a ++ p) p = true := by
  induction a with
  | nil =>
    cases p with
    | nil => rfl
    | cons c r =>
      show ((c :: r).isPrefixOf (c :: r) || goContains r (c :: r)) = true
      rw [List.isPrefixOf_iff_prefix.mpr (List.prefix_refl _)]
      rfl
  | cons c a2 ih =>
    show (p.isPrefixOf (c :: (a2 ++ p)) || goContains (a2 ++ p) p) = true
    rw [ih]
    exact Bool.or_true _

/-! ## Claim C1 -/

/-- C1: at the spec's order-preservation example the parsed CONTENT is as
claimed — the two location keys carry their prize lines in source order —
but the table is a Go map: its `range` enumeration is unspecified, the
reversed enumeration is an equally valid permutation of the same content,
and rendering the two enumerations produces different text, so no
encounter-order guarantee exists. -/
theorem parse_example_content_and_enum_order_matters :
    parseDescription (str "[A]\nG.1: x\nG.2: y\n[B]\nG.3: z") =
      [(str "[A]", [str "G.1: x", str "G.2: y"]), (str "[B]", [str "G.3: z"])] ∧
    List.Perm
      [(str "[B]", [str "G.3: z"]), (str "[A]", [str "G.1: x", str "G.2: y"])]
      (parseDescription (str "[A]\nG.1: x\nG.2: y\n[B]\nG.3: z")) ∧
    renderTable
        [(str "[B]", [str "G.3: z"]), (str "[A]", [str "G.1: x", str "G.2: y"])] ≠
      renderTable
        [(str "[A]", [str "G.1: x", str "G.2: y"]), (str "[B]", [str "G.3: z"])] := by
  refine ⟨by decide, ?_, by decide⟩
  rw [show parseDescription (str "[A]\nG.1: x\nG.2: y\n[B]\nG.3: z") =
    [(str "[A]", [str "G.1: x", str "G.2: y"]), (str "[B]", [str "G.3: z"])] from
    by decide]
  exact List.Perm.swap _ _ _

/-! ## Claim C2 -/

/-- C2 counterexample: a marker-free description with zero `G.`-prefixed
lines yields the EMPTY table — no key at all — not a one-key table with
the empty string mapped to an empty list. -/
theorem no_marker_zero_prize_lines_gives_empty_table :
    parseDescription (str "hello") = [] ∧
    (parseDescription (str "hello")).length ≠ 1 := by decide

/-- C2 (amended): for a description none of whose lines is a location
marker, every prize line lands under the empty-string key in original
order, but the empty-string entry exists only when at least one prize line
exists; with zero prize lines the table is empty. -/
theorem no_marker_all_lines_under_empty_key (desc : Str)
    (h : ∀ l ∈ splitNl (normalizeBreaks desc), isLocMarker (trimSpace l) = false) :
    parseDescription desc =
      if gLinesOf (splitNl (normalizeBreaks desc)) = [] then []
      else [([], gLinesOf (splitNl (normalizeBreaks desc)))] :=
  parseLoop_no_marker _ h

theorem no_marker_all_lines_under_empty_key_witness :
    (∀ l ∈ splitNl (normalizeBreaks (str "intro\nG.1: x\nG.2: y")),
      isLocMarker (trimSpace l) = false) ∧
    parseDescription (str "intro\nG.1: x\nG.2: y") =
      [([], [str "G.1: x", str "G.2: y"])] :=
  ⟨by decide, by
    rw [no_marker_all_lines_under_empty_key (str "intro\nG.1: x\nG.2: y") (by decide)]
    decide⟩

/-! ## Claim C3 -/

/-- C3 counterexample: a description that is a lone location marker with
no following prize lines produces NO entry for that label — the table is
empty, there is no label-to-empty-sequence entry. -/
theorem lone_marker_creates_no_entry :
    parseDescription (str "[A]") = [] ∧
    (str "[A]", ([] : List Str)) ∉ parseDescription (str "[A]") := by decide

/-- C3 (amended): an entry is only ever created by appending a prize line,
so every entry of every parsed table has a non-empty line list; a location
marker not followed by a prize line has no entry at all. -/
theorem table_entries_never_empty (desc : Str) :
    ∀ e ∈ parseDescription desc, e.2 ≠ [] := by
  intro e he
  refine parseLoop_forall (fun e => e.2 ≠ []) ?_ ?_ _ _ _ (Or.inl rfl)
    (by simp) e he
  · intro cur v _ _
    simp
  · intro k vs v _ _
    simp

theorem table_entries_never_empty_witness :
    (str "[A]", [str "G.1: x"]) ∈ parseDescription (str "[A]\nG.1: x") ∧
    [str "G.1: x"] ≠ ([] : List Str) :=
  ⟨by decide, table_entries_never_empty (str "[A]\nG.1: x")
    (str "[A]", [str "G.1: x"]) (by decide)⟩

/-! ## Claim C4 -/

/-- A fixed fetch result for the first source. -/
def itemMB : Item := ⟨str "XSMB 10/10", str "G.1: 11111", str "d1"⟩

/-- A fixed fetch result for the second source. -/
def itemMT : Item := ⟨str "XSMT 10/10", str "G.1: 22222", str "d2"⟩

/-- A fixed fetch result for the third source. -/
def itemMN : Item := ⟨str "XSMN 10/10", str "G.1: 33333", str "d3"⟩

/-- A fetch function with fixed per-source results. -/
def fetch3 : Str → Option RSS := fun u =>
  if u = srcMB.2 then some ⟨[itemMB]⟩
  else if u = srcMT.2 then some ⟨[itemMT]⟩
  else if u = srcMN.2 then some ⟨[itemMN]⟩
  else none

/-- C4: with the per-source fetch results fixed, the rendered message
still depends on the order in which the `range` over the `rssURLs` map
yields the sources: two valid enumerations of the same map content render
different messages, so the output is not deterministic across runs and is
not pinned to any configured order. -/
theorem message_depends_on_source_enumeration_order :
    List.Perm [srcMT, srcMB, srcMN] rssURLs ∧
    buildMessage id [srcMT, srcMB, srcMN] fetch3 ≠
      buildMessage id rssURLs fetch3 := by
  constructor
  · exact List.Perm.swap _ _ _
  · decide

/-! ## Claim C5 -/

/-- C5 counterexample: the break-tag normalization is case-sensitive, so
two descriptions identical except for `<br>` versus `<BR>` parse to
different tables. -/
theorem uppercase_br_changes_table :
    parseDescription (str "G.1: x<br>G.2: y") ≠
      parseDescription (str "G.1: x<BR>G.2: y") := by decide

/-- C5 (amended): for the three exact lowercase spellings `<br>`, `<br/>`,
`<br />` (and literal newlines), any two descriptions built from the same
`<`-free segments with any mix of those separators parse to equal tables. -/
theorem lowercase_br_spelling_invariance (s0 : Str) (r1 r2 : List (Sep × Str))
    (h0 : noLt s0) (hseg1 : ∀ p ∈ r1, noLt p.2) (hseg2 : ∀ p ∈ r2, noLt p.2)
    (hsame : r1.map Prod.snd = r2.map Prod.snd) :
    parseDescription (joinSep s0 r1) = parseDescription (joinSep s0 r2) := by
  unfold parseDescription
  rw [normalizeBreaks_joinSep s0 r1 h0 hseg1,
    normalizeBreaks_joinSep s0 r2 h0 hseg2, hsame]

theorem lowercase_br_spelling_invariance_witness :
    parseDescription (joinSep (str "G.1: x") [(Sep.br, str "G.2: y")]) =
      parseDescription (joinSep (str "G.1: x") [(Sep.brSpaceSlash, str "G.2: y")]) :=
  lowercase_br_spelling_invariance (str "G.1: x")
    [(Sep.br, str "G.2: y")] [(Sep.brSpaceSlash, str "G.2: y")]
    (by decide) (by decide) (by decide) rfl

/-! ## Claim C6 -/

/-- C6: every run hands exactly one message to the notifier, whatever the
fetch results; and when every configured source fails or returns zero
items, that one message is exactly the fixed header. -/
theorem notifier_called_exactly_once (tEnum : TableEnum)
    (order : List (Str × Str)) (fetch : Str → Option RSS) :
    (runJobSends tEnum order fetch).length = 1 ∧
    ((∀ src ∈ order,
        fetch src.2 = none ∨ ∃ rss, fetch src.2 = some rss ∧ rss.items = []) →
      runJobSends tEnum order fetch = [reportHeader]) := by
  refine ⟨rfl, fun h => ?_⟩
  show [buildMessage tEnum order fetch] = [reportHeader]
  rw [show buildMessage tEnum order fetch = reportHeader from
    foldl_buildStep_skip tEnum fetch order reportHeader h]

theorem notifier_called_exactly_once_witness :
    (runJobSends id rssURLs (fun _ => none)).length = 1 ∧
    runJobSends id rssURLs (fun _ => none) = [reportHeader] :=
  ⟨(notifier_called_exactly_once id rssURLs (fun _ => none)).1,
   (notifier_called_exactly_once id rssURLs (fun _ => none)).2
     (fun _ _ => Or.inl rfl)⟩

/-! ## Claim C7 -/

/-- C7: in a two-source run where the first source fails (or returns zero
items) and the second succeeds, the report is exactly the fixed header
followed by the succeeding source's block — so it contains that block,
and anything absent from header-plus-block (in particular any mention of
the failed source) is absent from the report.  In general, failed and
empty sources are skipped entirely: the report equals the report built
from the successfully fetched sources alone. -/
theorem failed_sources_leave_no_trace (tEnum : TableEnum) (l1 u1 l2 u2 : Str)
    (fetch : Str → Option RSS) (item : Item) (rest : List Item)
    (h1 : fetch u1 = none ∨ ∃ rss, fetch u1 = some rss ∧ rss.items = [])
    (h2 : fetch u2 = some ⟨item :: rest⟩) :
    buildMessage tEnum [(l1, u1), (l2, u2)] fetch =
        reportHeader ++ sourceBlock tEnum l2 item ∧
    goContains (buildMessage tEnum [(l1, u1), (l2, u2)] fetch)
        (sourceBlock tEnum l2 item) = true ∧
    (∀ pat : Str,
      goContains (reportHeader ++ sourceBlock tEnum l2 item) pat = false →
      goContains (buildMessage tEnum [(l1, u1), (l2, u2)] fetch) pat = false) ∧
    (∀ order : List (Str × Str), buildMessage tEnum order fetch =
      buildMessage tEnum (order.filter fun src => fetchOk (fetch src.2)) fetch) := by
  have hmain : buildMessage tEnum [(l1, u1), (l2, u2)] fetch =
      reportHeader ++ sourceBlock tEnum l2 item := by
    unfold buildMessage
    rw [List.foldl_cons, List.foldl_cons, List.foldl_nil,
      buildStep_skip tEnum fetch reportHeader (l1, u1) h1]
    exact buildStep_ok tEnum fetch reportHeader (l2, u2) item rest h2
  refine ⟨hmain, ?_, ?_, ?_⟩
  · rw [hmain]
    exact goContains_append_self _ _
  · intro pat hp
    rw [hmain]
    exact hp
  · intro order
    exact buildMessage_filter_ok tEnum fetch order reportHeader

/-- A fetch function for the witness run: source `u1` fails, `u2`
succeeds. -/
def fetchW : Str → Option RSS := fun u =>
  if u = str "u2" then some ⟨[⟨str "TB", str "[X]<br>G.1: 7", str "d"⟩]⟩ else none

theorem failed_sources_leave_no_trace_witness :
    buildMessage id [(str "A", str "u1"), (str "B", str "u2")] fetchW =
      reportHeader ++
        sourceBlock id (str "B") ⟨str "TB", str "[X]<br>G.1: 7", str "d"⟩ :=
  (failed_sources_leave_no_trace id (str "A") (str "u1") (str "B") (str "u2")
    fetchW ⟨str "TB", str "[X]<br>G.1: 7", str "d"⟩ []
    (Or.inl (by decide)) (by decide)).1

/-! ## Claim C8 -/

/-- C8: the notification body is built by plain interpolation with no
URL-encoding, so a message containing `&` corrupts the field structure:
for message `a&b` the body decodes to THREE fields, with the text field
holding only `a` — not to two fields with the text field carrying the
full message. -/
theorem payload_field_structure_broken_by_ampersand :
    formFields (payload (str "42") (str "a&b")) =
      [(str "chat_id", str "42"), (str "text", str "a"), (str "b", str "")] ∧
    (formFields (payload (str "42") (str "a&b"))).length ≠ 2 := by decide

/-! ## Claim C9 -/

/-- C9: a line that is neither a location marker nor a prize marker is
dropped: removing all such lines leaves the parse result unchanged, every
key of the result is the empty string or a location-marker line, and every
collected line is `G.`-prefixed — so a non-marker line can be no key and
appear in no value list. -/
theorem non_marker_lines_dropped (desc : Str) :
    parseLines ((splitNl (normalizeBreaks desc)).filter keepMarker) =
      parseDescription desc ∧
    ∀ e ∈ parseDescription desc,
      (e.1 = [] ∨ isLocMarker e.1 = true) ∧ ∀ v ∈ e.2, isPrizeLine v = true := by
  constructor
  · exact parseLoop_filter _ _ _
  · intro e he
    refine parseLoop_forall
      (fun e => (e.1 = [] ∨ isLocMarker e.1 = true) ∧
        ∀ v ∈ e.2, isPrizeLine v = true)
      ?_ ?_ _ _ _ (Or.inl rfl) (by simp) e he
    · intro cur v hcur hv
      refine ⟨hcur, ?_⟩
      intro x hx
      simp only [List.mem_singleton] at hx
      subst hx
      exact hv
    · intro k vs v hv hp
      obtain ⟨hk, hvs⟩ := hp
      refine ⟨hk, ?_⟩
      intro x hx
      rcases List.mem_append.mp hx with h | h
      · exact hvs x h
      · simp only [List.mem_singleton] at h
        subst h
        exact hv

theorem non_marker_lines_dropped_witness :
    parseLines ((splitNl (normalizeBreaks (str "hello\n[A]\nnote\nG.1: x"))).filter
        keepMarker) = parseDescription (str "hello\n[A]\nnote\nG.1: x") ∧
    ((str "[A]", [str "G.1: x"]).1 = [] ∨
      isLocMarker (str "[A]", [str "G.1: x"]).1 = true) ∧
    ∀ v ∈ (str "[A]", [str "G.1: x"]).2, isPrizeLine v = true :=
  ⟨(non_marker_lines_dropped (str "hello\n[A]\nnote\nG.1: x")).1,
   (non_marker_lines_dropped (str "hello\n[A]\nnote\nG.1: x")).2 _ (by decide)⟩

/-! ## Claim C10 -/

/-- C10: when the POST gets any HTTP response at all — whatever its
status code — `sendToTelegram` returns no error; only a transport-level
failure of the request is returned as an error. -/
theorem send_ignores_http_status (chatID message : Str)
    (post : Str → Except Str HttpResponse) :
    (∀ resp : HttpResponse, post (payload chatID message) = Except.ok resp →
      sendToTelegram chatID message post = none) ∧
    (∀ e : Str, post (payload chatID message) = Except.error e →
      sendToTelegram chatID message post = some e) := by
  constructor
  · intro resp h
    unfold sendToTelegram
    rw [h]
  · intro e h
    unfold sendToTelegram
    rw [h]

theorem send_ignores_http_status_witness :
    (fun _ : Str => Except.ok (ε := Str) (⟨500⟩ : HttpResponse))
        (payload (str "42") (str "m")) = Except.ok ⟨500⟩ ∧
    sendToTelegram (str "42") (str "m") (fun _ => Except.ok ⟨500⟩) = none :=
  ⟨rfl, (send_ignores_http_status (str "42") (str "m")
    (fun _ => Except.ok ⟨500⟩)).1 ⟨500⟩ rfl⟩

end KQXS
